import Mathlib

/-!
Verification of the topology-analysis layer of pynoddy (`pynoddy/output.py`,
class `NoddyTopology`).  The NetworkX graph held in `NoddyTopology.graph` is
embedded as an explicit structure: a node list (each node carrying its
`volume` attribute) and an edge list (each undirected edge carrying its
`area` attribute).  NetworkX guarantees that node ids are distinct and that
there is at most one edge per unordered pair of nodes; where a theorem needs
those facts they appear as explicit `Nodup` hypotheses.

Python exceptions (`ZeroDivisionError` in `jaccard_coefficient`, propagated
through `is_unique`, `find_matching` and `calculate_unique_topologies`) are
embedded with `Option`: `none` is an uncaught exception.  Float division is
idealised as exact rational division.
-/

namespace PyNoddy

/-- A NetworkX node as used by `NoddyTopology`: its id (a composite string
such as `2_001a`) together with the `volume` attribute. -/
structure GraphNode where
  id : String
  volume : Int
deriving Repr, DecidableEq

/-- A NetworkX undirected edge as used by `NoddyTopology`: the two endpoint
ids together with the `area` attribute. -/
structure GraphEdge where
  u : String
  v : String
  area : Int
deriving Repr, DecidableEq

/-- The NetworkX graph stored in `NoddyTopology.graph`. -/
structure Graph where
  nodes : List GraphNode
  edges : List GraphEdge
deriving Repr, DecidableEq

/-- `G.has_edge(u, v)`: NetworkX membership test for the undirected edge
between `u` and `v`. -/
def hasEdge (g : Graph) (u v : String) : Bool :=
  g.edges.any (fun e => (e.u = u ∧ e.v = v) ∨ (e.u = v ∧ e.v = u))

/-- The unordered endpoint pair of an edge. -/
def symE (e : GraphEdge) : Sym2 String := s(e.u, e.v)

/-- `NoddyTopology.jaccard_coefficient` (output.py:549-572).  `union` starts
at `self.graph.number_of_edges()`; the loop walks the edges of `self`,
incrementing `intersection` on shared edges and `union` on edges absent from
`G2`; the function returns `intersection / float(union)`.  When `union = 0`
(exactly when `self` has no edges) Python raises `ZeroDivisionError`,
embedded as `none`. -/
def jaccard_coefficient (g1 g2 : Graph) : Option ℚ :=
  let intersection : ℕ := (g1.edges.filter (fun e => hasEdge g2 e.u e.v)).length
  let union : ℕ :=
    g1.edges.length + (g1.edges.filter (fun e => ¬ hasEdge g2 e.u e.v)).length
  if union = 0 then none else some ((intersection : ℚ) / (union : ℚ))

/-- The classic Jaccard set-similarity ratio of the two unordered edge sets,
as the spec words it: size of the intersection over size of the union. -/
def jaccard_classic_spec (g1 g2 : Graph) : ℚ :=
  let s1 := (g1.edges.map symE).toFinset
  let s2 := (g2.edges.map symE).toFinset
  ((s1 ∩ s2).card : ℚ) / ((s1 ∪ s2).card : ℚ)

/-- `NoddyTopology.is_unique` (output.py:574-587): scans `known`, returning
`False` at the first graph whose jaccard coefficient with `self` equals 1,
`True` when the scan ends.  An exception in `jaccard_coefficient`
propagates (`none`). -/
def is_unique (g : Graph) : List Graph → Option Bool
  | [] => some true
  | g2 :: rest =>
    match jaccard_coefficient g g2 with
    | none => none
    | some q => if q = 1 then some false else is_unique g rest

/-- `NoddyTopology.find_matching` (output.py:648-662): returns the first
graph of `known` whose jaccard coefficient with `self` equals 1.0, else
`None`.  Outer `none` is a propagated exception; `some none` is the normal
no-match return. -/
def find_matching (g : Graph) : List Graph → Option (Option Graph)
  | [] => some none
  | g1 :: rest =>
    match jaccard_coefficient g g1 with
    | none => none
    | some q => if q = 1 then some (some g1) else find_matching g rest

/-- `NoddyTopology.calculate_overlap` (output.py:625-645): counts the edges
of `self` that `G2` also has. -/
def calculate_overlap (g1 g2 : Graph) : ℕ :=
  (g1.edges.filter (fun e => hasEdge g2 e.u e.v)).length

/-- `NoddyTopology.calculate_unique_topologies` (output.py:589-623), with the
cumulative-output stream made explicit: the accumulator pair is the unique
list `uTopo` and the list of progress values written after each input (the
source writes `len(uTopo)` once per input when an output file is given).
An exception inside `is_unique` propagates. -/
def calcUniqueAux : List Graph → List ℕ → List Graph → Option (List Graph × List ℕ)
  | uTopo, prog, [] => some (uTopo, prog)
  | uTopo, prog, t :: rest =>
    match is_unique t uTopo with
    | none => none
    | some b =>
      let uTopo' := if b then uTopo ++ [t] else uTopo
      calcUniqueAux uTopo' (prog ++ [uTopo'.length]) rest

/-- Entry point of `calculate_unique_topologies`: empty accumulator. -/
def calculate_unique_topologies (l : List Graph) : Option (List Graph × List ℕ) :=
  calcUniqueAux [] [] l

/-- The graph with no nodes and no edges. -/
def emptyGraph : Graph := ⟨[], []⟩

/-- `NoddyTopology.filter_node_volumes` relies on `Graph.remove_node`
(NetworkX): the node is deleted together with every incident edge. -/
def remove_node (g : Graph) (n : String) : Graph :=
  { nodes := g.nodes.filter (fun m => m.id ≠ n),
    edges := g.edges.filter (fun e => e.u ≠ n ∧ e.v ≠ n) }

/-- `NoddyTopology.filter_node_volumes` (output.py:530-547): walks a snapshot
of the node list, removing every node whose `volume` attribute is strictly
below `min_volume` and counting the removals.  The source reads the volume
back out of the graph by id; since NetworkX node ids are unique the snapshot
entry carries the same value, so the embedding uses the snapshot's volume. -/
def filter_node_volumes (g : Graph) (min_volume : Int) : Graph × ℕ :=
  g.nodes.foldl
    (fun st nd =>
      if nd.volume < min_volume then (remove_node st.1 nd.id, st.2 + 1) else st)
    (g, 0)

/-! ### Edge classification in `loadNetwork` (output.py:435-460) -/

/-- The `if/elif` chain mapping the classification digit `eCode` to the edge
type string. -/
def edge_type_of_code (c : ℕ) : String :=
  if c = 0 then "stratigraphic"
  else if c = 2 ∨ c = 7 ∨ c = 8 then "fault"
  else if c = 3 then "unconformity"
  else if c = 5 then "intrusive"
  else "unknown"

/-- The classification loop of `loadNetwork`: `for i in range(0,
len(topoCode1) - 1)`, and at every position where the two codes differ the
larger digit becomes `eCode` and the type string is recomputed; the loop does
not break, so a later difference overwrites an earlier one.  Topology codes
are embedded as lists of digit values (the trailing letter, which the range
excludes, may be any value). -/
def classify_edge (topoCode1 topoCode2 : List ℕ) : ℕ × String :=
  (List.range (topoCode1.length - 1)).foldl
    (fun st i =>
      if topoCode1.getD i 0 ≠ topoCode2.getD i 0 then
        let eCode := if topoCode2.getD i 0 > topoCode1.getD i 0
          then topoCode2.getD i 0 else topoCode1.getD i 0
        (eCode, edge_type_of_code eCode)
      else st)
    (0, "stratigraphic")

/-- Modelled from the spec's words (first-difference rule): at the first
position where the two codes differ, the larger digit is taken and scanning
stops. -/
def classify_edge_first_spec (topoCode1 topoCode2 : List ℕ) : ℕ × String :=
  (((List.range (topoCode1.length - 1)).find?
      (fun i => topoCode1.getD i 0 ≠ topoCode2.getD i 0)).elim
    (0, "stratigraphic")
    (fun i =>
      let c := max (topoCode1.getD i 0) (topoCode2.getD i 0)
      (c, edge_type_of_code c)))

/-- The last-difference rule: the digit is the larger value at the last
position (within the scanned range) where the two codes differ. -/
def classify_edge_last_spec (topoCode1 topoCode2 : List ℕ) : ℕ × String :=
  (((List.range (topoCode1.length - 1)).filter
      (fun i => decide (topoCode1.getD i 0 ≠ topoCode2.getD i 0))).getLast?).elim
    (0, "stratigraphic")
    (fun i =>
      let c := max (topoCode1.getD i 0) (topoCode2.getD i 0)
      (c, edge_type_of_code c))

/-! ### Graph construction in `loadNetwork` (output.py:421-474) -/

/-- One parsed line of the `.g23` edge-list file: the two composite node
identifiers (`data[0]`, `data[1]`) and the voxel count `int(data[-1])`. -/
structure EdgeLine where
  node1 : String
  node2 : String
  count : Int
deriving Repr, DecidableEq

/-- NetworkX `add_node` as used by `loadNetwork`: insert the node if absent,
and (re)assign its attributes (the source always rewrites `volume` straight
after the `add_node` call). -/
def add_node (g : Graph) (n : String) (vol : Int) : Graph :=
  if g.nodes.any (fun m => m.id = n) then
    { g with nodes := g.nodes.map (fun m => if m.id = n then ⟨n, vol⟩ else m) }
  else
    { g with nodes := g.nodes ++ [⟨n, vol⟩] }

/-- NetworkX `add_edge` as used by `loadNetwork`: if the unordered pair
already has an edge its attributes (here `area`) are overwritten, otherwise
the edge is appended.  (NetworkX would also insert missing endpoints, which
never happens in `loadNetwork` because both `add_node` calls precede it.) -/
def add_edge (g : Graph) (u v : String) (area : Int) : Graph :=
  if hasEdge g u v then
    { g with edges := g.edges.map (fun e =>
        if (e.u = u ∧ e.v = v) ∨ (e.u = v ∧ e.v = u) then ⟨e.u, e.v, area⟩ else e) }
  else
    { g with edges := g.edges ++ [⟨u, v, area⟩] }

/-- The graph-building part of `NoddyTopology.loadNetwork`: starting from a
fresh graph, every line adds its two nodes (volumes taken from
`node_properties`, embedded as the function `vol`) and one undirected edge
whose `area` is the line's count. -/
def loadNetwork (vol : String → Int) (lines : List EdgeLine) : Graph :=
  lines.foldl
    (fun g l =>
      add_edge (add_node (add_node g l.node1 (vol l.node1)) l.node2 (vol l.node2))
        l.node1 l.node2 l.count)
    emptyGraph

/-- The count attached to the last occurrence of the unordered pair `pr`
in the edge-list lines. -/
def lastCountOf (lines : List EdgeLine) (pr : Sym2 String) : Option Int :=
  (lines.reverse.find? (fun l => s(l.node1, l.node2) = pr)).map (fun l => l.count)

/-! ### Lithology property parsing, `read_properties` (output.py:476-497) -/

/-- Python `str.split(' ')`: cut at every single space, keeping empty
tokens.  (Embedded structurally over the character list so that it is
kernel-computable.) -/
def splitSpacesAux : List Char → List (List Char)
  | [] => [[]]
  | c :: rest =>
    match splitSpacesAux rest with
    | [] => []
    | t :: ts => if c = ' ' then [] :: t :: ts else (c :: t) :: ts

/-- Python `line.split(' ')` on a string. -/
def splitSpace (s : String) : List String :=
  (splitSpacesAux s.toList).map String.mk

/-- Python `str.strip()`: drop leading and trailing whitespace. -/
def trimChars (cs : List Char) : List Char :=
  ((cs.dropWhile Char.isWhitespace).reverse.dropWhile Char.isWhitespace).reverse

/-- Python `line.strip()` on a string. -/
def trimString (s : String) : String :=
  String.mk (trimChars s.toList)

/-- One lithology definition as stored in `self.lithology_properties`. -/
structure LithParams where
  code : Int
  name : String
  colour : List ℚ
deriving Repr, DecidableEq

/-- Parsing of one lithology definition line: tokens come from
`(line.strip()).split(' ')`; `int(l[0])` is the code, `' '.join(l[2:-3])`
the name, and the last three tokens divided by 255.0 the colour.  Numeric
literal parsing (`int`, `float`) is abstracted by the parameters `pint` and
`pfloat`. -/
def parse_lith_line (pint : String → Int) (pfloat : String → ℚ) (line : String) :
    LithParams :=
  let l := splitSpace (trimString line)
  { code := pint (l.getD 0 (""))
  , name := String.intercalate (" ") ((l.take (l.length - 3)).drop 2)
  , colour := [pfloat (l.getD (l.length - 3) "") / 255,
               pfloat (l.getD (l.length - 2) "") / 255,
               pfloat (l.getD (l.length - 1) "") / 255] }

/-- Python dict assignment `self.lithology_properties[params['code']] =
params`, on an insertion-ordered association list. -/
def upsertLith (d : List (Int × LithParams)) (p : LithParams) :
    List (Int × LithParams) :=
  if d.any (fun kv => kv.1 = p.code) then
    d.map (fun kv => if kv.1 = p.code then (p.code, p) else kv)
  else d ++ [(p.code, p)]

/-- The lithology part of `NoddyTopology.read_properties`: the event count is
`int(lines[0].split(' ')[2])` and the loop runs `for i in range(nevents + 3,
len(lines))`, storing each parsed definition in the dict keyed by its code. -/
def read_properties (pint : String → Int) (pfloat : String → ℚ)
    (lines : List String) : List (Int × LithParams) :=
  let nevents : Int := pint ((splitSpace (lines.getD 0 (""))).getD 2 (""))
  ((List.range lines.length).drop (nevents + 3).toNat).foldl
    (fun d i => upsertLith d (parse_lith_line pint pfloat (lines.getD i (""))))
    []

/-- Dict lookup on the association list built by `read_properties`. -/
def lithLookup (d : List (Int × LithParams)) (c : Int) : Option LithParams :=
  (d.find? (fun kv => kv.1 = c)).map (fun kv => kv.2)

/-! ### Basic lemmas about `hasEdge` and unordered pairs -/

theorem hasEdge_iff_mem_map_symE (g : Graph) (u v : String) :
    hasEdge g u v = true ↔ s(u, v) ∈ g.edges.map symE := by
  simp only [hasEdge, List.any_eq_true, decide_eq_true_eq, List.mem_map, symE, Sym2.eq_iff]

theorem hasEdge_self_edge (g : Graph) (e : GraphEdge) (he : e ∈ g.edges) :
    hasEdge g e.u e.v = true := by
  simp only [hasEdge, List.any_eq_true, decide_eq_true_eq]
  exact ⟨e, he, Or.inl ⟨rfl, rfl⟩⟩

/-- `calculate_overlap` as a finite-set intersection cardinality, assuming the
NetworkX invariant that `g1` holds at most one edge per unordered pair. -/
theorem calculate_overlap_eq_card (g1 g2 : Graph)
    (h1 : (g1.edges.map symE).Nodup) :
    calculate_overlap g1 g2 =
      ((g1.edges.map symE).toFinset ∩ (g2.edges.map symE).toFinset).card := by
  classical
  unfold calculate_overlap
  have hcongr : g1.edges.filter (fun e => hasEdge g2 e.u e.v)
      = g1.edges.filter (fun e => symE e ∈ g2.edges.map symE) := by
    apply List.filter_congr
    intro e _
    have := hasEdge_iff_mem_map_symE g2 e.u e.v
    by_cases hb : hasEdge g2 e.u e.v = true
    · simp [hb, symE, this.mp hb]
    · have : ¬ s(e.u, e.v) ∈ g2.edges.map symE := fun hm => hb (this.mpr hm)
      simp only [hb, eq_iff_iff, false_iff]
      simpa [symE] using this
  rw [hcongr]
  have hlen : (g1.edges.filter (fun e => symE e ∈ g2.edges.map symE)).length
      = ((g1.edges.map symE).filter (fun x => x ∈ g2.edges.map symE)).length := by
    rw [List.filter_map]
    simp [Function.comp_def]
  rw [hlen]
  have hnd : ((g1.edges.map symE).filter (fun x => x ∈ g2.edges.map symE)).Nodup :=
    h1.filter _
  rw [← List.toFinset_card_of_nodup hnd, List.toFinset_filter]
  congr 1
  rw [← Finset.filter_mem_eq_inter]
  apply Finset.filter_congr
  intro x _
  simp

/-- A fold that overwrites its state at every element satisfying `p` ends in
the state produced by the last such element. -/
theorem foldl_ite_getLast {α β : Type} (p : α → Prop) [DecidablePred p]
    (g : α → β) (init : β) (l : List α) :
    l.foldl (fun st a => if p a then g a else st) init
      = ((l.filter (fun a => decide (p a))).getLast?).elim init g := by
  induction l generalizing init with
  | nil => rfl
  | cons a l ih =>
    rw [List.foldl_cons, List.filter_cons]
    by_cases h : p a
    · rw [if_pos h, if_pos (decide_eq_true h), ih (g a)]
      cases hq : l.filter (fun a => decide (p a)) with
      | nil => simp [hq]
      | cons b m =>
        rw [List.getLast?_cons_cons]
        have hx : (b :: m).getLast? = some ((b :: m).getLast (by simp)) :=
          List.getLast?_eq_getLast _ (by simp)
        rw [hx]
        rfl
    · rw [if_neg h, if_neg (fun hc => h (of_decide_eq_true hc)), ih init]

/-- Characterization of the removal loop of `filter_node_volumes`: folding
over any snapshot list removes exactly the ids of the low-volume snapshot
entries (with their incident edges) and counts them. -/
theorem filter_node_volumes_aux (t : Int) :
    ∀ (ns : List GraphNode) (g : Graph) (c : ℕ),
      (ns.foldl (fun st nd =>
          if nd.volume < t then (remove_node st.1 nd.id, st.2 + 1) else st) (g, c))
        = (⟨g.nodes.filter
              (fun m => m.id ∉ (ns.filter (fun nd => nd.volume < t)).map GraphNode.id),
            g.edges.filter
              (fun e => e.u ∉ (ns.filter (fun nd => nd.volume < t)).map GraphNode.id ∧
                        e.v ∉ (ns.filter (fun nd => nd.volume < t)).map GraphNode.id)⟩,
           c + (ns.filter (fun nd => nd.volume < t)).length) := by
  intro ns
  induction ns with
  | nil =>
    intro g c
    simp
  | cons nd ns ih =>
    intro g c
    by_cases hlow : nd.volume < t
    · rw [List.foldl_cons, if_pos hlow, ih (remove_node g nd.id) (c + 1)]
      have hfc : (nd :: ns).filter (fun x => x.volume < t)
          = nd :: ns.filter (fun x => x.volume < t) := by
        simp [List.filter_cons, hlow]
      rw [hfc]
      refine congrArg₂ Prod.mk ?_ (by simp [List.length_cons]; omega)
      refine congrArg₂ Graph.mk ?_ ?_
      · show (g.nodes.filter _).filter _ = _
        rw [List.filter_filter]
        apply List.filter_congr
        intro m hm
        rw [Bool.eq_iff_iff]
        simp [List.mem_cons, not_or, and_comm]
      · show (g.edges.filter _).filter _ = _
        rw [List.filter_filter]
        apply List.filter_congr
        intro e he
        rw [Bool.eq_iff_iff]
        simp only [decide_eq_true_eq, Bool.and_eq_true, List.mem_cons, not_or, List.map_cons]
        tauto
    · rw [List.foldl_cons, if_neg hlow, ih g c]
      have hfc : (nd :: ns).filter (fun x => x.volume < t)
          = ns.filter (fun x => x.volume < t) := by
        simp [List.filter_cons, hlow]
      rw [hfc]

/-- If no snapshot entry is below the threshold, the removal loop leaves the
state untouched. -/
theorem filter_node_volumes_aux_noop (t : Int) :
    ∀ (ns : List GraphNode) (g : Graph) (c : ℕ),
      (∀ nd ∈ ns, ¬ nd.volume < t) →
      (ns.foldl (fun st nd =>
          if nd.volume < t then (remove_node st.1 nd.id, st.2 + 1) else st) (g, c))
        = (g, c) := by
  intro ns
  induction ns with
  | nil => intro g c _; rfl
  | cons nd ns ih =>
    intro g c hall
    rw [List.foldl_cons, if_neg (hall nd (by simp))]
    exact ih g c (fun x hx => hall x (List.mem_cons_of_mem _ hx))

/-! ### Lemmas about `add_node`, `add_edge` and `loadNetwork` -/

theorem edge_matches_iff (e : GraphEdge) (u v : String) :
    ((e.u = u ∧ e.v = v) ∨ (e.u = v ∧ e.v = u)) ↔ symE e = s(u, v) := by
  simp [symE, Sym2.eq_iff]

theorem add_node_edges (g : Graph) (n : String) (vol : Int) :
    (add_node g n vol).edges = g.edges := by
  unfold add_node
  split <;> rfl

theorem add_node_ids (g : Graph) (n : String) (vol : Int) :
    (add_node g n vol).nodes.map GraphNode.id
      = if g.nodes.any (fun m => m.id = n) then g.nodes.map GraphNode.id
        else g.nodes.map GraphNode.id ++ [n] := by
  unfold add_node
  split
  · simp only [List.map_map]
    apply List.map_congr_left
    intro m _
    by_cases hm : m.id = n
    · simp [Function.comp, hm]
    · simp [Function.comp, hm]
  · simp

theorem mem_add_node_ids (g : Graph) (n : String) (vol : Int) (x : String) :
    x ∈ (add_node g n vol).nodes.map GraphNode.id ↔
      x ∈ g.nodes.map GraphNode.id ∨ x = n := by
  rw [add_node_ids]
  split
  · rename_i hc
    constructor
    · exact Or.inl
    · rintro (hx | rfl)
      · exact hx
      · obtain ⟨m, hm, hid⟩ := List.any_eq_true.mp hc
        exact List.mem_map.mpr ⟨m, hm, of_decide_eq_true hid⟩
  · simp

theorem add_edge_nodes (g : Graph) (u v : String) (a : Int) :
    (add_edge g u v a).nodes = g.nodes := by
  unfold add_edge
  split <;> rfl

theorem add_edge_syms (g : Graph) (u v : String) (a : Int) :
    (add_edge g u v a).edges.map symE
      = if hasEdge g u v then g.edges.map symE
        else g.edges.map symE ++ [s(u, v)] := by
  unfold add_edge
  split
  · simp only [List.map_map]
    apply List.map_congr_left
    intro e _
    by_cases he : (e.u = u ∧ e.v = v) ∨ (e.u = v ∧ e.v = u)
    · simp only [Function.comp_apply, if_pos he]
      rfl
    · simp only [Function.comp_apply, if_neg he]
  · simp [symE]

theorem lastCountOf_append (ls : List EdgeLine) (l : EdgeLine) (pr : Sym2 String) :
    lastCountOf (ls ++ [l]) pr
      = if s(l.node1, l.node2) = pr then some l.count else lastCountOf ls pr := by
  unfold lastCountOf
  rw [List.reverse_append]
  simp only [List.reverse_singleton, List.singleton_append, List.find?_cons]
  by_cases hc : s(l.node1, l.node2) = pr
  · rw [if_pos hc]
    simp [hc]
  · rw [if_neg hc]
    simp [hc]

/-! ### Lemmas about `read_properties` -/

theorem range_drop_eq_range' (n k : ℕ) :
    (List.range n).drop k = List.range' k (n - k) := by
  apply List.ext_getElem
  · simp
  · intro i h1 h2
    simp

theorem map_getD_range' (xs : List String) :
    ∀ (m a : ℕ), a + m = xs.length →
      (List.range' a m).map (fun i => xs.getD i ("")) = xs.drop a := by
  intro m
  induction m with
  | zero =>
    intro a h
    rw [List.range'_zero, List.map_nil, List.drop_of_length_le (by omega)]
  | succ m ih =>
    intro a h
    rw [List.range'_succ, List.map_cons]
    have ha : a < xs.length := by omega
    rw [List.drop_eq_getElem_cons ha, List.getD_eq_getElem xs ("") ha]
    rw [ih (a + 1) (by omega)]

theorem upsertLith_map_lookup_eq (p : LithParams) (c : Int) (hc : c = p.code) :
    ∀ d : List (Int × LithParams), d.any (fun kv => kv.1 = p.code) = true →
      lithLookup (d.map (fun kv => if kv.1 = p.code then (p.code, p) else kv)) c
        = some p := by
  intro d
  induction d with
  | nil => simp
  | cons kv d ih =>
    intro hany
    by_cases hkv : kv.1 = p.code
    · simp [lithLookup, List.find?_cons, hkv, hc]
    · have hne : (decide (kv.1 = c)) = false :=
        decide_eq_false (fun h => hkv (h.trans hc))
    -- the head does not match, recurse
      simp only [List.map_cons, if_neg hkv, lithLookup, List.find?_cons, hne, cond_false]
      have hany' : d.any (fun kv => kv.1 = p.code) = true := by
        rcases List.any_eq_true.mp hany with ⟨kv', hkv', hk⟩
        rcases List.mem_cons.mp hkv' with rfl | hkv'
        · exact absurd (of_decide_eq_true hk) hkv
        · exact List.any_eq_true.mpr ⟨kv', hkv', hk⟩
      exact ih hany'

theorem upsertLith_map_lookup_ne (p : LithParams) (c : Int) (hc : ¬ c = p.code) :
    ∀ d : List (Int × LithParams),
      lithLookup (d.map (fun kv => if kv.1 = p.code then (p.code, p) else kv)) c
        = lithLookup d c := by
  intro d
  induction d with
  | nil => rfl
  | cons kv d ih =>
    by_cases hkv : kv.1 = p.code
    · have hne1 : (decide (p.code = c)) = false :=
        decide_eq_false (fun h => hc h.symm)
      have hne2 : (decide (kv.1 = c)) = false :=
        decide_eq_false (fun h => hc ((hkv ▸ h : p.code = c)).symm)
      simp only [List.map_cons, if_pos hkv, lithLookup, List.find?_cons, hne1, hne2,
        cond_false]
      exact ih
    · by_cases hkc : kv.1 = c
      · have hd : (decide (kv.1 = c)) = true := decide_eq_true hkc
        simp only [List.map_cons, if_neg hkv, lithLookup, List.find?_cons, hd, cond_true]
      · have hne : (decide (kv.1 = c)) = false := decide_eq_false hkc
        simp only [List.map_cons, if_neg hkv, lithLookup, List.find?_cons, hne,
          cond_false]
        exact ih

theorem upsertLith_lookup (d : List (Int × LithParams)) (p : LithParams) (c : Int) :
    lithLookup (upsertLith d p) c
      = if p.code = c then some p else lithLookup d c := by
  unfold upsertLith
  by_cases hany : d.any (fun kv => kv.1 = p.code)
  · rw [if_pos hany]
    by_cases hc : c = p.code
    · rw [upsertLith_map_lookup_eq p c hc d hany, if_pos hc.symm]
    · rw [upsertLith_map_lookup_ne p c hc d, if_neg (fun h => hc h.symm)]
  · rw [if_neg hany]
    unfold lithLookup
    rw [List.find?_append]
    by_cases hc : p.code = c
    · have hnone : d.find? (fun kv => decide (kv.1 = c)) = none := by
        rw [List.find?_eq_none]
        intro kv hkv
        simp only [decide_eq_true_eq]
        intro hkvc
        exact hany (List.any_eq_true.mpr ⟨kv, hkv, decide_eq_true (hkvc.trans hc.symm)⟩)
      rw [hnone]
      simp [hc]
    · have hsing : ([(p.code, p)].find? (fun kv => decide (kv.1 = c))) = none := by
        simp [hc]
      rw [hsing]
      simp [hc]

theorem foldl_upsertLith_lookup (ps : List LithParams) :
    ∀ (d : List (Int × LithParams)) (c : Int),
      lithLookup (ps.foldl upsertLith d) c
        = ((ps.filter (fun p => p.code = c)).getLast?).elim (lithLookup d c) some := by
  induction ps with
  | nil =>
    intro d c
    rfl
  | cons p ps ih =>
    intro d c
    rw [List.foldl_cons, ih (upsertLith d p) c, upsertLith_lookup, List.filter_cons]
    by_cases hc : p.code = c
    · rw [if_pos hc, if_pos (decide_eq_true hc)]
      cases hq : ps.filter (fun x => decide (x.code = c)) with
      | nil => simp
      | cons b m =>
        rw [List.getLast?_cons_cons]
        have hx : (b :: m).getLast? = some ((b :: m).getLast (by simp)) :=
          List.getLast?_eq_getLast _ (by simp)
        rw [hx]
        rfl
    · rw [if_neg hc, if_neg (by simpa using hc)]

/-! ### Claim theorems -/

/-- C1 counterexample: the classification loop does not stop at the first
differing position — on codes `209` / `039` (scanned range: the first two
digits) the first difference gives digit 2 (fault) but the code returns
digit 3 (unconformity), because the later difference overwrites the earlier
one. -/
theorem classify_edge_not_first_difference :
    classify_edge [2, 0, 9] [0, 3, 9] = (3, "unconformity") ∧
    classify_edge_first_spec [2, 0, 9] [0, 3, 9] = (2, "fault") ∧
    classify_edge [2, 0, 9] [0, 3, 9] ≠ classify_edge_first_spec [2, 0, 9] [0, 3, 9] :=
  ⟨by decide, by decide, by decide⟩

/-- C1 (amended): the classification digit is the larger of the two values at
the LAST position (within the scanned range, which excludes the final
character) where the two topology codes differ — later differences overwrite
earlier ones; with no difference the default is digit 0 / stratigraphic.  The
digit-to-type map is as the claim states it. -/
theorem classify_edge_eq_last_difference (t1 t2 : List ℕ) :
    classify_edge t1 t2 = classify_edge_last_spec t1 t2 := by
  have h : classify_edge t1 t2
      = (((List.range (t1.length - 1)).filter
            (fun i => decide (t1.getD i 0 ≠ t2.getD i 0))).getLast?).elim
          ((0 : ℕ), "stratigraphic")
          (fun i =>
            ((if t2.getD i 0 > t1.getD i 0 then t2.getD i 0 else t1.getD i 0),
              edge_type_of_code
                (if t2.getD i 0 > t1.getD i 0 then t2.getD i 0 else t1.getD i 0))) :=
    foldl_ite_getLast _ _ _ _
  have hmax : ∀ x y : ℕ, (if y > x then y else x) = max x y := by
    intro x y
    rcases lt_or_ge x y with hxy | hxy
    · rw [if_pos hxy]
      exact (max_eq_right hxy.le).symm
    · rw [if_neg (not_lt.mpr hxy)]
      exact (max_eq_left hxy).symm
  rw [h]
  unfold classify_edge_last_spec
  congr 1
  funext i
  simp only [hmax]

/-- C2: the `union` accumulator of `jaccard_coefficient` never incorporates
edges unique to `G2`, so the returned value is not the classic Jaccard ratio
of the two edge sets: with `A = {ab}` and `B = {ab, cd}` the code returns
1.0 although the classic ratio is 1/2 and the two edge sets differ (so
"1.0 iff identical" fails as well). -/
theorem jaccard_coefficient_ignores_b_only_edges :
    jaccard_coefficient ⟨[], [⟨"a", "b", 0⟩]⟩ ⟨[], [⟨"a", "b", 0⟩, ⟨"c", "d", 0⟩]⟩
        = some 1 ∧
    jaccard_classic_spec ⟨[], [⟨"a", "b", 0⟩]⟩ ⟨[], [⟨"a", "b", 0⟩, ⟨"c", "d", 0⟩]⟩
        = 1 / 2 ∧
    ((Graph.mk [] [⟨"a", "b", 0⟩]).edges.map symE).toFinset ≠
      ((Graph.mk [] [⟨"a", "b", 0⟩, ⟨"c", "d", 0⟩]).edges.map symE).toFinset := by
  refine ⟨by simp [jaccard_coefficient, hasEdge], ?_, by decide⟩
  have h1 : (((Graph.mk [] [⟨"a", "b", 0⟩]).edges.map symE).toFinset ∩
      ((Graph.mk [] [⟨"a", "b", 0⟩, ⟨"c", "d", 0⟩]).edges.map symE).toFinset).card = 1 := by
    decide
  have h2 : (((Graph.mk [] [⟨"a", "b", 0⟩]).edges.map symE).toFinset ∪
      ((Graph.mk [] [⟨"a", "b", 0⟩, ⟨"c", "d", 0⟩]).edges.map symE).toFinset).card = 2 := by
    decide
  simp only [jaccard_classic_spec, h1, h2]
  norm_num

/-- C3: the comparison operations do fail on well-formed empty graphs:
`jaccard_coefficient` of two graphs with empty edge sets divides by zero
(embedded as `none`) instead of returning 1.0, and the exception propagates
through `is_unique` and `find_matching`. -/
theorem comparison_ops_raise_on_empty_graphs :
    jaccard_coefficient emptyGraph emptyGraph = none ∧
    is_unique emptyGraph [emptyGraph] = none ∧
    find_matching emptyGraph [emptyGraph] = none :=
  ⟨rfl, rfl, rfl⟩

/-- C6: `calculate_overlap` is symmetric on graphs holding at most one edge
per unordered pair (the NetworkX invariant), and both orders count the
unordered node-id pairs carrying an edge in both graphs. -/
theorem calculate_overlap_symm (g1 g2 : Graph)
    (h1 : (g1.edges.map symE).Nodup) (h2 : (g2.edges.map symE).Nodup) :
    calculate_overlap g1 g2 = calculate_overlap g2 g1 ∧
    calculate_overlap g1 g2 =
      ((g1.edges.map symE).toFinset ∩ (g2.edges.map symE).toFinset).card := by
  refine ⟨?_, calculate_overlap_eq_card g1 g2 h1⟩
  rw [calculate_overlap_eq_card g1 g2 h1, calculate_overlap_eq_card g2 g1 h2,
    Finset.inter_comm]

/-- Witness for C6 at concrete graphs. -/
theorem calculate_overlap_symm_witness :
    (((Graph.mk [] [⟨"a", "b", 1⟩]).edges.map symE).Nodup ∧
      ((Graph.mk [] [⟨"a", "b", 2⟩, ⟨"c", "d", 3⟩]).edges.map symE).Nodup) ∧
    (calculate_overlap ⟨[], [⟨"a", "b", 1⟩]⟩ ⟨[], [⟨"a", "b", 2⟩, ⟨"c", "d", 3⟩]⟩
        = calculate_overlap ⟨[], [⟨"a", "b", 2⟩, ⟨"c", "d", 3⟩]⟩ ⟨[], [⟨"a", "b", 1⟩]⟩ ∧
      calculate_overlap ⟨[], [⟨"a", "b", 1⟩]⟩ ⟨[], [⟨"a", "b", 2⟩, ⟨"c", "d", 3⟩]⟩
        = (((Graph.mk [] [⟨"a", "b", 1⟩]).edges.map symE).toFinset ∩
            ((Graph.mk [] [⟨"a", "b", 2⟩, ⟨"c", "d", 3⟩]).edges.map symE).toFinset).card) :=
  ⟨⟨by decide, by decide⟩, calculate_overlap_symm _ _ (by decide) (by decide)⟩

/-- C7 counterexample: on the empty graph `jaccard_coefficient (G, G)` does
not return 1.0 — it raises `ZeroDivisionError` (embedded as `none`). -/
theorem jaccard_coefficient_self_empty_raises :
    jaccard_coefficient emptyGraph emptyGraph ≠ some 1 ∧
    jaccard_coefficient emptyGraph emptyGraph = none := by
  constructor <;> simp [jaccard_coefficient, emptyGraph]

/-- C7 (amended): for every graph with at least one edge,
`jaccard_coefficient (G, G)` returns exactly 1.0. -/
theorem jaccard_coefficient_self (g : Graph) (h : g.edges ≠ []) :
    jaccard_coefficient g g = some 1 := by
  have hfil : g.edges.filter (fun e => hasEdge g e.u e.v) = g.edges :=
    List.filter_eq_self.mpr (fun e he => by
      simpa using hasEdge_self_edge g e he)
  have hnil : g.edges.filter (fun e => ¬ hasEdge g e.u e.v) = [] := by
    rw [List.filter_eq_nil_iff]
    intro e he
    simp [hasEdge_self_edge g e he]
  unfold jaccard_coefficient
  rw [hfil, hnil]
  have hne : g.edges.length ≠ 0 := by
    simpa [List.length_eq_zero] using h
  simp only [List.length_nil, Nat.add_zero, if_neg hne]
  congr 1
  exact div_self (by exact_mod_cast hne)

/-- Witness for C7 at a one-edge graph. -/
theorem jaccard_coefficient_self_witness :
    (Graph.mk [] [⟨"a", "b", 0⟩]).edges ≠ [] ∧
    jaccard_coefficient ⟨[], [⟨"a", "b", 0⟩]⟩ ⟨[], [⟨"a", "b", 0⟩]⟩ = some 1 :=
  ⟨by decide, jaccard_coefficient_self ⟨[], [⟨"a", "b", 0⟩]⟩ (by decide)⟩

/-- Whenever `jaccard_coefficient` returns normally, the returned ratio is at
most 1: the loop's `union` accumulator dominates its `intersection`
accumulator. -/
theorem jaccard_coefficient_le_one (g1 g2 : Graph) (q : ℚ)
    (h : jaccard_coefficient g1 g2 = some q) : 0 ≤ q ∧ q ≤ 1 := by
  unfold jaccard_coefficient at h
  by_cases hz : g1.edges.length +
      (g1.edges.filter (fun e => ¬ hasEdge g2 e.u e.v)).length = 0
  · rw [if_pos hz] at h
    cases h
  · rw [if_neg hz] at h
    have hq := Option.some_inj.mp h
    have hle : (g1.edges.filter (fun e => hasEdge g2 e.u e.v)).length ≤
        g1.edges.length + (g1.edges.filter (fun e => ¬ hasEdge g2 e.u e.v)).length :=
      le_trans (List.length_filter_le _ _) (Nat.le_add_right _ _)
    have hpos : (0 : ℚ) < (g1.edges.length +
        (g1.edges.filter (fun e => ¬ hasEdge g2 e.u e.v)).length : ℕ) := by
      exact_mod_cast Nat.pos_of_ne_zero hz
    constructor
    · rw [← hq]
      positivity
    · rw [← hq]
      rw [div_le_one hpos]
      exact_mod_cast hle

/-- `is_unique` returns `True` exactly when every comparison succeeds with a
coefficient different from 1. -/
theorem is_unique_eq_true_iff (g : Graph) (known : List Graph) :
    is_unique g known = some true ↔
      ∀ g2 ∈ known, ∃ q, jaccard_coefficient g g2 = some q ∧ q ≠ 1 := by
  induction known with
  | nil => simp [is_unique]
  | cons g2 rest ih =>
    cases hj : jaccard_coefficient g g2 with
    | none =>
      simp only [is_unique, hj]
      constructor
      · intro hcontra
        exact absurd hcontra (by simp)
      · intro hall
        obtain ⟨q, hq, -⟩ := hall g2 (by simp)
        rw [hj] at hq
        cases hq
    | some q =>
      by_cases h1 : q = 1
      · subst h1
        simp only [is_unique, hj, if_pos rfl]
        constructor
        · intro hcontra
          cases hcontra
        · intro hall
          obtain ⟨q', hq', hne⟩ := hall g2 (by simp)
          rw [hj] at hq'
          exact absurd (Option.some_inj.mp hq').symm hne
      · simp only [is_unique, hj, if_neg h1]
        rw [ih]
        constructor
        · intro hrest g2' hmem
          rcases List.mem_cons.mp hmem with rfl | hmem'
          · exact ⟨q, hj, h1⟩
          · exact hrest g2' hmem'
        · intro hall g2' hmem
          exact hall g2' (List.mem_cons_of_mem _ hmem)

/-- Invariant of the accumulation loop of `calculate_unique_topologies`: the
progress stream grows by one entry per input, stays monotone and bounded,
and every element appended to the unique list was checked against all the
earlier ones. -/
theorem calcUniqueAux_props (l : List Graph) :
    ∀ (uTopo : List Graph) (prog : List ℕ) (u : List Graph) (p : List ℕ),
      calcUniqueAux uTopo prog l = some (u, p) →
      List.Pairwise (fun a b => ∃ q, jaccard_coefficient b a = some q ∧ q < 1) uTopo →
      List.Chain' (· ≤ ·) prog →
      (∀ x ∈ prog, x ≤ uTopo.length) →
      p.length = prog.length + l.length ∧
        List.Pairwise (fun a b => ∃ q, jaccard_coefficient b a = some q ∧ q < 1) u ∧
        List.Chain' (· ≤ ·) p ∧
        (∀ x ∈ p, x ≤ uTopo.length + l.length) := by
  induction l with
  | nil =>
    intro uTopo prog u p heq hpw hch hb
    simp only [calcUniqueAux, Option.some_inj, Prod.mk.injEq] at heq
    obtain ⟨rfl, rfl⟩ := heq
    refine ⟨by simp, hpw, hch, ?_⟩
    simpa using hb
  | cons t rest ih =>
    intro uTopo prog u p heq hpw hch hb
    simp only [calcUniqueAux] at heq
    cases hu : is_unique t uTopo with
    | none => rw [hu] at heq; cases heq
    | some b =>
      rw [hu] at heq
      simp only at heq
      cases b with
      | true =>
        simp only [if_pos] at heq
        have hchecked : ∀ a ∈ uTopo,
            ∃ q, jaccard_coefficient t a = some q ∧ q < 1 := by
          intro a ha
          obtain ⟨q, hq, hne⟩ := (is_unique_eq_true_iff t uTopo).mp hu a ha
          exact ⟨q, hq, lt_of_le_of_ne (jaccard_coefficient_le_one t a q hq).2 hne⟩
        have hpw' : List.Pairwise (fun a b => ∃ q, jaccard_coefficient b a = some q ∧ q < 1)
            (uTopo ++ [t]) := by
          rw [List.pairwise_append]
          refine ⟨hpw, by simp, ?_⟩
          intro a ha b hbmem
          rw [List.mem_singleton.mp hbmem]
          exact hchecked a ha
        have hch' : List.Chain' (· ≤ ·) (prog ++ [(uTopo ++ [t]).length]) := by
          apply List.Chain'.append hch (by simp)
          intro x hx y hy
          obtain ⟨hne, hxl⟩ := List.mem_getLast?_eq_getLast hx
          have hxmem : x ∈ prog := hxl ▸ List.getLast_mem hne
          have := hb x hxmem
          simp only [List.head?_cons, Option.mem_def, Option.some_inj] at hy
          subst hy
          simp only [List.length_append, List.length_singleton]
          omega
        have hb' : ∀ x ∈ prog ++ [(uTopo ++ [t]).length],
            x ≤ (uTopo ++ [t]).length := by
          intro x hx
          rcases List.mem_append.mp hx with hx | hx
          · have := hb x hx
            simp only [List.length_append, List.length_singleton]
            omega
          · rw [List.mem_singleton.mp hx]
        obtain ⟨hlen, hpw'', hch'', hb''⟩ := ih _ _ u p heq hpw' hch' hb'
        have e1 : (prog ++ [(uTopo ++ [t]).length]).length = prog.length + 1 := by simp
        have e2 : (uTopo ++ [t]).length = uTopo.length + 1 := by simp
        rw [e1] at hlen
        refine ⟨?_, hpw'', hch'', ?_⟩
        · rw [hlen, List.length_cons]
          omega
        · intro x hx
          have hx' := hb'' x hx
          rw [e2] at hx'
          rw [List.length_cons]
          omega
      | false =>
        rw [if_neg (by simp)] at heq
        have hch' : List.Chain' (· ≤ ·) (prog ++ [uTopo.length]) := by
          apply List.Chain'.append hch (by simp)
          intro x hx y hy
          obtain ⟨hne, hxl⟩ := List.mem_getLast?_eq_getLast hx
          have hxmem : x ∈ prog := hxl ▸ List.getLast_mem hne
          have := hb x hxmem
          simp only [List.head?_cons, Option.mem_def, Option.some_inj] at hy
          omega
        have hb' : ∀ x ∈ prog ++ [uTopo.length], x ≤ uTopo.length := by
          intro x hx
          rcases List.mem_append.mp hx with hx | hx
          · exact hb x hx
          · rw [List.mem_singleton.mp hx]
        obtain ⟨hlen, hpw'', hch'', hb''⟩ := ih _ _ u p heq hpw hch' hb'
        have e1 : (prog ++ [uTopo.length]).length = prog.length + 1 := by simp
        rw [e1] at hlen
        refine ⟨?_, hpw'', hch'', ?_⟩
        · rw [hlen, List.length_cons]
          omega
        · intro x hx
          have hx' := hb'' x hx
          rw [List.length_cons]
          omega

/-- C4 counterexample: the pairwise guarantee on the returned unique list is
one-directional only.  With `B = {ab}` first and `A = {ab, cd}` second, both
graphs are kept (the progress stream is 1, 2), yet
`jaccard_coefficient(B, A) = 1.0`, so the pair is matching in the
known→candidate direction. -/
theorem calculate_unique_topologies_not_bidirectional :
    calculate_unique_topologies
        [⟨[], [⟨"a", "b", 0⟩]⟩, ⟨[], [⟨"a", "b", 0⟩, ⟨"c", "d", 0⟩]⟩]
      = some ([⟨[], [⟨"a", "b", 0⟩]⟩, ⟨[], [⟨"a", "b", 0⟩, ⟨"c", "d", 0⟩]⟩], [1, 2]) ∧
    jaccard_coefficient ⟨[], [⟨"a", "b", 0⟩]⟩ ⟨[], [⟨"a", "b", 0⟩, ⟨"c", "d", 0⟩]⟩
      = some 1 ∧
    (⟨[], [⟨"a", "b", 0⟩]⟩ : Graph) ≠ ⟨[], [⟨"a", "b", 0⟩, ⟨"c", "d", 0⟩]⟩ := by
  refine ⟨?_, by simp [jaccard_coefficient, hasEdge], by decide⟩
  have hj : jaccard_coefficient ⟨[], [⟨"a", "b", 0⟩, ⟨"c", "d", 0⟩]⟩
      ⟨[], [⟨"a", "b", 0⟩]⟩ = some (1 / 3) := by
    simp [jaccard_coefficient, hasEdge]
  simp [calculate_unique_topologies, calcUniqueAux, is_unique, hj]

/-- C4 (amended): when `calculate_unique_topologies` over N inputs terminates
normally, the progress stream has exactly one entry per input, is
monotonically non-decreasing with every value (so also the final one) at
most N, and every element of the returned unique list is non-matching
against each earlier element in the candidate→known direction
(`jaccard_coefficient(later, earlier)` is defined and strictly below 1.0 —
the converse direction can fail, see the counterexample). -/
theorem calculate_unique_topologies_props (l u : List Graph) (p : List ℕ)
    (h : calculate_unique_topologies l = some (u, p)) :
    p.length = l.length ∧
    List.Chain' (· ≤ ·) p ∧
    (∀ x ∈ p, x ≤ l.length) ∧
    List.Pairwise (fun a b => ∃ q, jaccard_coefficient b a = some q ∧ q < 1) u := by
  obtain ⟨hlen, hpw, hch, hbd⟩ :=
    calcUniqueAux_props l [] [] u p h (by simp) (by simp) (by simp)
  refine ⟨by simpa using hlen, hch, ?_, hpw⟩
  intro x hx
  simpa using hbd x hx

/-- Witness for C4 at a one-element input list. -/
theorem calculate_unique_topologies_props_witness :
    calculate_unique_topologies [⟨[], [⟨"a", "b", 0⟩]⟩]
        = some ([⟨[], [⟨"a", "b", 0⟩]⟩], [1]) ∧
    (([1] : List ℕ).length = [(⟨[], [⟨"a", "b", 0⟩]⟩ : Graph)].length ∧
      List.Chain' (· ≤ ·) ([1] : List ℕ) ∧
      (∀ x ∈ ([1] : List ℕ), x ≤ [(⟨[], [⟨"a", "b", 0⟩]⟩ : Graph)].length) ∧
      List.Pairwise (fun a b => ∃ q, jaccard_coefficient b a = some q ∧ q < 1)
        [(⟨[], [⟨"a", "b", 0⟩]⟩ : Graph)]) :=
  ⟨rfl, calculate_unique_topologies_props [⟨[], [⟨"a", "b", 0⟩]⟩]
    [⟨[], [⟨"a", "b", 0⟩]⟩] [1] rfl⟩

/-- C5: under the NetworkX invariant that node ids are distinct,
`filter_node_volumes` removes exactly the nodes with `volume < threshold`
(and no others), removes the edges incident to a removed node, returns the
number of removed nodes, and a second call with the same threshold leaves the
graph unchanged and returns 0. -/
theorem filter_node_volumes_spec (g : Graph) (t : Int)
    (h : (g.nodes.map GraphNode.id).Nodup) :
    (filter_node_volumes g t).1.nodes = g.nodes.filter (fun nd => ¬ nd.volume < t) ∧
    (filter_node_volumes g t).1.edges
        = g.edges.filter (fun e =>
            e.u ∉ (g.nodes.filter (fun nd => nd.volume < t)).map GraphNode.id ∧
            e.v ∉ (g.nodes.filter (fun nd => nd.volume < t)).map GraphNode.id) ∧
    (filter_node_volumes g t).2 = (g.nodes.filter (fun nd => nd.volume < t)).length ∧
    filter_node_volumes (filter_node_volumes g t).1 t = ((filter_node_volumes g t).1, 0) := by
  have hmain : filter_node_volumes g t
      = (⟨g.nodes.filter
            (fun m => m.id ∉ (g.nodes.filter (fun nd => nd.volume < t)).map GraphNode.id),
          g.edges.filter
            (fun e => e.u ∉ (g.nodes.filter (fun nd => nd.volume < t)).map GraphNode.id ∧
                      e.v ∉ (g.nodes.filter (fun nd => nd.volume < t)).map GraphNode.id)⟩,
         0 + (g.nodes.filter (fun nd => nd.volume < t)).length) :=
    filter_node_volumes_aux t g.nodes g 0
  have hinj : ∀ a ∈ g.nodes, ∀ b ∈ g.nodes, a.id = b.id → a = b := by
    have hpw : g.nodes.Pairwise (fun a b => a.id ≠ b.id) :=
      (List.pairwise_map.mp h)
    intro a ha b hb heq
    by_contra hne
    exact hpw.forall (fun x y hxy => hxy ∘ Eq.symm) ha hb hne heq
  have hmem : ∀ m ∈ g.nodes,
      (m.id ∈ (g.nodes.filter (fun nd => nd.volume < t)).map GraphNode.id ↔
        m.volume < t) := by
    intro m hm
    constructor
    · intro hmm
      obtain ⟨m', hm', hid⟩ := List.mem_map.mp hmm
      obtain ⟨hm'mem, hm'low⟩ := List.mem_filter.mp hm'
      rw [hinj m' hm'mem m hm hid] at hm'low
      exact of_decide_eq_true hm'low
    · intro hlow
      exact List.mem_map.mpr ⟨m, List.mem_filter.mpr ⟨hm, decide_eq_true hlow⟩, rfl⟩
  refine ⟨?_, ?_, ?_, ?_⟩
  · rw [hmain]
    apply List.filter_congr
    intro m hm
    rw [Bool.eq_iff_iff]
    simp only [decide_eq_true_eq]
    exact not_congr (hmem m hm)
  · rw [hmain]
  · rw [hmain]
    exact Nat.zero_add _
  · have hnone : ∀ nd ∈ (filter_node_volumes g t).1.nodes, ¬ nd.volume < t := by
      rw [hmain]
      intro nd hnd
      obtain ⟨hndmem, hndnot⟩ := List.mem_filter.mp hnd
      have : ¬ nd.id ∈ (g.nodes.filter (fun x => x.volume < t)).map GraphNode.id :=
        of_decide_eq_true hndnot
      exact fun hlow => this ((hmem nd hndmem).mpr hlow)
    exact filter_node_volumes_aux_noop t _ _ 0 hnone

/-- Witness for C5 at a concrete two-node graph. -/
theorem filter_node_volumes_spec_witness :
    ((Graph.mk [⟨"a", 10⟩, ⟨"b", 100⟩] [⟨"a", "b", 1⟩]).nodes.map GraphNode.id).Nodup ∧
    ((filter_node_volumes ⟨[⟨"a", 10⟩, ⟨"b", 100⟩], [⟨"a", "b", 1⟩]⟩ 50).1.nodes
        = (Graph.mk [⟨"a", 10⟩, ⟨"b", 100⟩] [⟨"a", "b", 1⟩]).nodes.filter
            (fun nd => ¬ nd.volume < 50) ∧
      (filter_node_volumes ⟨[⟨"a", 10⟩, ⟨"b", 100⟩], [⟨"a", "b", 1⟩]⟩ 50).1.edges
        = (Graph.mk [⟨"a", 10⟩, ⟨"b", 100⟩] [⟨"a", "b", 1⟩]).edges.filter
            (fun e =>
              e.u ∉ ((Graph.mk [⟨"a", 10⟩, ⟨"b", 100⟩] [⟨"a", "b", 1⟩]).nodes.filter
                  (fun nd => nd.volume < 50)).map GraphNode.id ∧
              e.v ∉ ((Graph.mk [⟨"a", 10⟩, ⟨"b", 100⟩] [⟨"a", "b", 1⟩]).nodes.filter
                  (fun nd => nd.volume < 50)).map GraphNode.id) ∧
      (filter_node_volumes ⟨[⟨"a", 10⟩, ⟨"b", 100⟩], [⟨"a", "b", 1⟩]⟩ 50).2
        = ((Graph.mk [⟨"a", 10⟩, ⟨"b", 100⟩] [⟨"a", "b", 1⟩]).nodes.filter
            (fun nd => nd.volume < 50)).length ∧
      filter_node_volumes
          (filter_node_volumes ⟨[⟨"a", 10⟩, ⟨"b", 100⟩], [⟨"a", "b", 1⟩]⟩ 50).1 50
        = ((filter_node_volumes ⟨[⟨"a", 10⟩, ⟨"b", 100⟩], [⟨"a", "b", 1⟩]⟩ 50).1, 0)) :=
  ⟨by decide,
    filter_node_volumes_spec ⟨[⟨"a", 10⟩, ⟨"b", 100⟩], [⟨"a", "b", 1⟩]⟩ 50 (by decide)⟩

/-- C8: after `loadNetwork`, the node-id set of the built graph is exactly
the set of composite identifiers appearing in the edge-list lines, the graph
holds at most one edge per unordered node-id pair (the unordered endpoint
pairs of the edge list are `Nodup`), every edge's `area` equals the count of
the LAST occurrence of its unordered pair in the file, and every line's pair
is present as an edge. -/
theorem loadNetwork_spec (vol : String → Int) (lines : List EdgeLine) :
    (∀ n, n ∈ (loadNetwork vol lines).nodes.map GraphNode.id ↔
        ∃ l ∈ lines, n = l.node1 ∨ n = l.node2) ∧
    ((loadNetwork vol lines).edges.map symE).Nodup ∧
    (∀ e ∈ (loadNetwork vol lines).edges,
      lastCountOf lines (symE e) = some e.area) ∧
    (∀ l ∈ lines, hasEdge (loadNetwork vol lines) l.node1 l.node2 = true) := by
  induction lines using List.reverseRecOn with
  | nil =>
    refine ⟨?_, ?_, ?_, ?_⟩ <;> simp [loadNetwork, emptyGraph, hasEdge]
  | append_singleton ls l ih =>
    obtain ⟨ihn, ihd, ihc, ihh⟩ := ih
    have hstep : loadNetwork vol (ls ++ [l])
        = add_edge (add_node (add_node (loadNetwork vol ls) l.node1 (vol l.node1))
            l.node2 (vol l.node2)) l.node1 l.node2 l.count := by
      simp [loadNetwork, List.foldl_append]
    have hedges2 : (add_node (add_node (loadNetwork vol ls) l.node1 (vol l.node1))
        l.node2 (vol l.node2)).edges = (loadNetwork vol ls).edges := by
      rw [add_node_edges, add_node_edges]
    have hhe2 : hasEdge (add_node (add_node (loadNetwork vol ls) l.node1 (vol l.node1))
          l.node2 (vol l.node2)) l.node1 l.node2
        = hasEdge (loadNetwork vol ls) l.node1 l.node2 := by
      simp [hasEdge, hedges2]
    have hsyms : (loadNetwork vol (ls ++ [l])).edges.map symE
        = if hasEdge (loadNetwork vol ls) l.node1 l.node2
          then (loadNetwork vol ls).edges.map symE
          else (loadNetwork vol ls).edges.map symE ++ [s(l.node1, l.node2)] := by
      rw [hstep, add_edge_syms, hhe2, hedges2]
    refine ⟨?_, ?_, ?_, ?_⟩
    · intro n
      have hn : n ∈ (loadNetwork vol (ls ++ [l])).nodes.map GraphNode.id ↔
          (n ∈ (loadNetwork vol ls).nodes.map GraphNode.id ∨ n = l.node1) ∨
            n = l.node2 := by
        rw [hstep, add_edge_nodes, mem_add_node_ids, mem_add_node_ids]
      rw [hn, ihn]
      constructor
      · rintro ((⟨l', hl', hor⟩ | rfl) | rfl)
        · exact ⟨l', List.mem_append_left _ hl', hor⟩
        · exact ⟨l, List.mem_append_right _ (by simp), Or.inl rfl⟩
        · exact ⟨l, List.mem_append_right _ (by simp), Or.inr rfl⟩
      · rintro ⟨l', hl', hor⟩
        rcases List.mem_append.mp hl' with hl' | hl'
        · exact Or.inl (Or.inl ⟨l', hl', hor⟩)
        · rw [List.mem_singleton.mp hl'] at hor
          rcases hor with h1 | h2
          · exact Or.inl (Or.inr h1)
          · exact Or.inr h2
    · rw [hsyms]
      by_cases hhe : hasEdge (loadNetwork vol ls) l.node1 l.node2
      · rw [if_pos hhe]
        exact ihd
      · rw [if_neg hhe]
        rw [List.nodup_append]
        refine ⟨ihd, by simp, ?_⟩
        intro x hx hx'
        rw [List.mem_singleton.mp hx'] at hx
        exact hhe ((hasEdge_iff_mem_map_symE _ _ _).mpr hx)
    · intro e he
      rw [lastCountOf_append]
      rw [hstep] at he
      unfold add_edge at he
      rw [hhe2] at he
      by_cases hhe : hasEdge (loadNetwork vol ls) l.node1 l.node2
      · rw [if_pos hhe] at he
        simp only [hedges2, List.mem_map] at he
        obtain ⟨e0, he0, heq⟩ := he
        by_cases hm : (e0.u = l.node1 ∧ e0.v = l.node2) ∨ (e0.u = l.node2 ∧ e0.v = l.node1)
        · rw [if_pos hm] at heq
          have hs : symE e = s(l.node1, l.node2) := by
            rw [← heq]
            exact ((edge_matches_iff e0 l.node1 l.node2).mp hm :
              symE e0 = s(l.node1, l.node2))
          rw [hs, if_pos rfl, ← heq]
        · rw [if_neg hm] at heq
          subst heq
          have hs : symE e0 ≠ s(l.node1, l.node2) := fun hc =>
            hm ((edge_matches_iff e0 l.node1 l.node2).mpr hc)
          rw [if_neg (fun hc => hs hc.symm)]
          exact ihc e0 he0
      · rw [if_neg hhe] at he
        simp only [hedges2] at he
        rcases List.mem_append.mp he with he | he
        · have hs : symE e ≠ s(l.node1, l.node2) := by
            intro hc
            apply hhe
            rw [hasEdge_iff_mem_map_symE]
            rw [← hc]
            exact List.mem_map.mpr ⟨e, he, rfl⟩
          rw [if_neg (fun hc => hs hc.symm)]
          exact ihc e he
        · rw [List.mem_singleton.mp he]
          rw [if_pos (by simp [symE])]
    · intro l' hl'
      rw [hasEdge_iff_mem_map_symE, hsyms]
      by_cases hhe : hasEdge (loadNetwork vol ls) l.node1 l.node2
      · rw [if_pos hhe]
        rcases List.mem_append.mp hl' with hl' | hl'
        · exact (hasEdge_iff_mem_map_symE _ _ _).mp (ihh l' hl')
        · rw [List.mem_singleton.mp hl']
          exact (hasEdge_iff_mem_map_symE _ _ _).mp hhe
      · rw [if_neg hhe]
        rcases List.mem_append.mp hl' with hl' | hl'
        · exact List.mem_append_left _ ((hasEdge_iff_mem_map_symE _ _ _).mp (ihh l' hl'))
        · rw [List.mem_singleton.mp hl']
          exact List.mem_append_right _ (by simp)

/-- C9: when the first line's third whitespace token parses to the event
count N, `read_properties` parses exactly the lines from index N + 3 to the
end of the file (the stored dict maps each code to the LAST such definition
carrying it), and each definition line yields the first token as integer
code, the join of tokens 2 up to (excluding) the last three as name, and the
last three tokens each divided by 255 as colour. -/
theorem read_properties_spec (pint : String → Int) (pfloat : String → ℚ)
    (lines : List String) (N : ℕ)
    (hN : pint ((splitSpace (lines.getD 0 (""))).getD 2 ("")) = (N : Int)) :
    (∀ c, lithLookup (read_properties pint pfloat lines) c
        = (((lines.drop (N + 3)).map (parse_lith_line pint pfloat)).filter
            (fun p => p.code = c)).getLast?) ∧
    (∀ line, parse_lith_line pint pfloat line
        = { code := pint ((splitSpace (trimString line)).getD 0 (""))
          , name := String.intercalate (" ")
              (((splitSpace (trimString line)).take
                  ((splitSpace (trimString line)).length - 3)).drop 2)
          , colour :=
              [pfloat ((splitSpace (trimString line)).getD
                  ((splitSpace (trimString line)).length - 3) "") / 255,
               pfloat ((splitSpace (trimString line)).getD
                  ((splitSpace (trimString line)).length - 2) "") / 255,
               pfloat ((splitSpace (trimString line)).getD
                  ((splitSpace (trimString line)).length - 1) "") / 255] }) := by
  constructor
  · intro c
    have h1 : read_properties pint pfloat lines
        = ((lines.drop (N + 3)).map (parse_lith_line pint pfloat)).foldl
            upsertLith [] := by
      simp only [read_properties]
      rw [hN, show ((N : Int) + 3).toNat = N + 3 from by omega, range_drop_eq_range']
      rw [List.foldl_map]
      by_cases hlen : N + 3 ≤ lines.length
      · rw [← map_getD_range' lines (lines.length - (N + 3)) (N + 3) (by omega)]
        rw [List.foldl_map]
      · rw [show lines.length - (N + 3) = 0 from by omega, List.range'_zero,
          List.drop_of_length_le (by omega), List.foldl_nil, List.foldl_nil]
    rw [h1, foldl_upsertLith_lookup]
    generalize (((lines.drop (N + 3)).map (parse_lith_line pint pfloat)).filter
        (fun p => p.code = c)).getLast? = o
    cases o <;> rfl
  · intro line
    rfl

/-- Witness for C9 at a concrete five-line properties file with event count
1 and a single lithology definition line. -/
theorem read_properties_spec_witness :
    (fun s => (if s = "1" then 1 else if s = "2" then 2 else 0 : Int))
        ((splitSpace (["NUM EVENTS 1", "a", "b", "c", "2 x My Rock 255 128 0"].getD 0
            "")).getD 2 ("")) = ((1 : ℕ) : Int) ∧
    lithLookup
        (read_properties (fun s => (if s = "1" then 1 else if s = "2" then 2 else 0 : Int))
          (fun _ => (0 : ℚ))
          ["NUM EVENTS 1", "a", "b", "c", "2 x My Rock 255 128 0"]) 2
      = (((["NUM EVENTS 1", "a", "b", "c", "2 x My Rock 255 128 0"].drop (1 + 3)).map
            (parse_lith_line
              (fun s => (if s = "1" then 1 else if s = "2" then 2 else 0 : Int))
              (fun _ => (0 : ℚ)))).filter
          (fun p => p.code = 2)).getLast? :=
  ⟨by decide,
    (read_properties_spec
      (fun s => (if s = "1" then 1 else if s = "2" then 2 else 0 : Int))
      (fun _ => (0 : ℚ))
      ["NUM EVENTS 1", "a", "b", "c", "2 x My Rock 255 128 0"] 1 (by decide)).1 2⟩

/-- C10: with an empty known list, `is_unique` returns `True` and
`find_matching` returns `None`, for every candidate graph, without touching
`jaccard_coefficient` (in particular no exception even when the candidate
itself would make `jaccard_coefficient` raise). -/
theorem vacuous_comparison_on_empty_known (g : Graph) :
    is_unique g [] = some true ∧ find_matching g [] = some none :=
  ⟨rfl, rfl⟩

end PyNoddy
